import Mathlib

/-!
Verification of the `lui` terminal client (a Lemmy TUI).

Shallow embedding of the parts of the code the specification talks about:
the Kitty graphics chunked escape-sequence codec (`KittyImage`), the login
normalization and outcome logic (`LoginForm.log_in`), the reactive session
cell (`LemmyView.watch_lemmy` / `connect_lemmy_view`), the search pipeline
(`LemmyView.action_search`), and the selection movement of the older
prototype (`PostView._move_selection` in `main.py`).

Python byte strings are modelled as `List Nat` (each element < 256 where it
matters), Python `str` as `List Char`.
-/

namespace Lui

/-! ### standard_b64encode / base64 decoding

`KittyImage.write_chunked` calls `base64.standard_b64encode` on the PNG
buffer.  We embed the standard base64 alphabet and the byte-level encoding,
plus the standard decoder used to state the round-trip property. -/

/-- The standard base64 alphabet: sextet value to ASCII code. -/
def b64tab (n : Nat) : Nat :=
  if n < 26 then 65 + n
  else if n < 52 then 97 + (n - 26)
  else if n < 62 then 48 + (n - 52)
  else if n = 62 then 43
  else 47

/-- Inverse of the base64 alphabet: ASCII code to sextet value. -/
def b64inv (c : Nat) : Nat :=
  if 65 ≤ c ∧ c ≤ 90 then c - 65
  else if 97 ≤ c ∧ c ≤ 122 then c - 97 + 26
  else if 48 ≤ c ∧ c ≤ 57 then c - 48 + 52
  else if c = 43 then 62
  else if c = 47 then 63
  else 0

/-- Embedding of `base64.standard_b64encode`: bytes to ASCII codes, with `=` (61) padding. -/
def b64encode : List Nat → List Nat
  | a :: b :: c :: rest =>
      b64tab (a / 4) :: b64tab (a % 4 * 16 + b / 16) ::
      b64tab (b % 16 * 4 + c / 64) :: b64tab (c % 64) :: b64encode rest
  | [a, b] => [b64tab (a / 4), b64tab (a % 4 * 16 + b / 16), b64tab (b % 16 * 4), 61]
  | [a] => [b64tab (a / 4), b64tab (a % 4 * 16), 61, 61]
  | [] => []

/-- Standard base64 decoding: ASCII codes back to bytes, honouring `=` padding. -/
def b64decode : List Nat → List Nat
  | s0 :: s1 :: s2 :: s3 :: rest =>
      if s2 = 61 then [b64inv s0 * 4 + b64inv s1 / 16]
      else if s3 = 61 then
        [b64inv s0 * 4 + b64inv s1 / 16, b64inv s1 % 16 * 16 + b64inv s2 / 4]
      else
        (b64inv s0 * 4 + b64inv s1 / 16) ::
        (b64inv s1 % 16 * 16 + b64inv s2 / 4) ::
        (b64inv s2 % 4 * 64 + b64inv s3) :: b64decode rest
  | _ => []

theorem b64inv_b64tab : ∀ n < 64, b64inv (b64tab n) = n := by decide

theorem b64tab_ne_61 : ∀ n < 64, b64tab n ≠ 61 := by decide

theorem b64decode_b64encode (l : List Nat) (h : ∀ x ∈ l, x < 256) :
    b64decode (b64encode l) = l := by
  induction l using b64encode.induct with
  | case1 a b c rest ih =>
    have ha : a < 256 := h a (by simp)
    have hb : b < 256 := h b (by simp)
    have hc : c < 256 := h c (by simp)
    have hrest : ∀ x ∈ rest, x < 256 := fun x hx => h x (by simp [hx])
    simp only [b64encode, b64decode]
    rw [if_neg (b64tab_ne_61 _ (by omega)), if_neg (b64tab_ne_61 _ (by omega))]
    rw [b64inv_b64tab _ (by omega), b64inv_b64tab _ (by omega),
        b64inv_b64tab _ (by omega), b64inv_b64tab _ (by omega)]
    have e1 : a / 4 * 4 + (a % 4 * 16 + b / 16) / 16 = a := by omega
    have e2 : (a % 4 * 16 + b / 16) % 16 * 16 + (b % 16 * 4 + c / 64) / 4 = b := by omega
    have e3 : (b % 16 * 4 + c / 64) % 4 * 64 + c % 64 = c := by omega
    rw [e1, e2, e3, ih hrest]
  | case2 a b =>
    have ha : a < 256 := h a (by simp)
    have hb : b < 256 := h b (by simp)
    simp only [b64encode, b64decode]
    rw [if_neg (b64tab_ne_61 _ (by omega)), if_pos trivial]
    rw [b64inv_b64tab _ (by omega), b64inv_b64tab _ (by omega),
        b64inv_b64tab _ (by omega)]
    have e1 : a / 4 * 4 + (a % 4 * 16 + b / 16) / 16 = a := by omega
    have e2 : (a % 4 * 16 + b / 16) % 16 * 16 + b % 16 * 4 / 4 = b := by omega
    rw [e1, e2]
  | case3 a =>
    have ha : a < 256 := h a (by simp)
    simp only [b64encode, b64decode]
    rw [if_pos trivial]
    rw [b64inv_b64tab _ (by omega), b64inv_b64tab _ (by omega)]
    have e1 : a / 4 * 4 + a % 4 * 16 / 16 = a := by omega
    rw [e1]
  | case4 => rfl

/-! ### KittyImage chunked frames

`write_chunked` splits the base64 data into 4096-byte chunks; each chunk
becomes one escape-sequence frame `<ESC>_G<key=value,...>;<payload><ESC>\`.
The frame's control data is the `m` flag plus the extra keyword arguments
(`a="T"`, `f=100` on the first call; `cmd.clear()` empties them afterwards,
so continuation frames carry only `m` and the payload). -/

structure Frame where
  payload : List Nat
  m : Nat
  ctrl : List (String × String)
deriving DecidableEq

/-- Embedding of the loop body of `KittyImage.write_chunked`: repeatedly take
a 4096-byte chunk of `data`, emit a frame with `m = 1` while data remains and
`m = 0` on the last frame, and clear the extra `cmd` parameters after the
first frame. -/
def writeChunked (ctrl : List (String × String)) (data : List Nat) : List Frame :=
  match data with
  | [] => []
  | d :: ds =>
      let chunk := (d :: ds).take 4096
      let rest := (d :: ds).drop 4096
      let m := if rest.isEmpty then 0 else 1
      ⟨chunk, m, ctrl⟩ :: writeChunked [] rest
termination_by data.length
decreasing_by
  simp only [List.length_drop, List.length_cons]
  omega

/-- Embedding of `KittyImage.write_chunked(a="T", f=100)` applied to the PNG buffer:
base64-encode the bytes, then chunk them into frames.  (`f=100` is rendered
as the string `"100"` because `serialize_gr_command` formats every value with
an f-string.) -/
def kittyEncode (png : List Nat) : List Frame :=
  writeChunked [("a", "T"), ("f", "100")] (b64encode png)

/-- Embedding of `KittyImage.__init__` downstream of the network fetch.
`decodePng` stands for the result of the external `Image.open` / `resize` /
`save` pipeline: `none` when the image bytes cannot be decoded (PIL raises
`UnidentifiedImageError`), `some png` with the re-encoded PNG bytes
otherwise.  The constructor has no exception handler, so a decode failure
propagates as an error instead of producing an empty stream. -/
def kittyInit (decodePng : Option (List Nat)) : Except Unit (List Frame) :=
  match decodePng with
  | none => Except.error ()
  | some png => Except.ok (kittyEncode png)

theorem writeChunked_nil (ctrl : List (String × String)) :
    writeChunked ctrl [] = [] := by
  simp [writeChunked]

theorem join_payload_writeChunked (ctrl : List (String × String)) (s : List Nat) :
    ((writeChunked ctrl s).map Frame.payload).flatten = s := by
  induction ctrl, s using writeChunked.induct with
  | case1 ctrl => simp [writeChunked]
  | case2 ctrl d ds rest ih =>
    rw [writeChunked]
    simp only [List.map_cons, List.flatten_cons]
    rw [ih]
    exact List.take_append_drop 4096 (d :: ds)

theorem length_writeChunked (ctrl : List (String × String)) (s : List Nat) :
    (writeChunked ctrl s).length = (s.length + 4095) / 4096 := by
  induction ctrl, s using writeChunked.induct with
  | case1 ctrl => simp [writeChunked]
  | case2 ctrl d ds rest ih =>
    have ih2 : (writeChunked [] ((d :: ds).drop 4096)).length
        = (((d :: ds).drop 4096).length + 4095) / 4096 := ih
    rw [writeChunked]
    simp only [List.length_cons]
    rw [ih2]
    simp only [List.length_drop, List.length_cons]
    omega

theorem one_le_length_writeChunked (ctrl : List (String × String)) (s : List Nat)
    (h : s ≠ []) : 1 ≤ (writeChunked ctrl s).length := by
  rw [length_writeChunked]
  cases hx : s with
  | nil => exact absurd hx h
  | cons a l =>
    simp only [List.length_cons]
    omega

theorem map_m_writeChunked (ctrl : List (String × String)) (s : List Nat)
    (h : s ≠ []) :
    (writeChunked ctrl s).map Frame.m
      = List.replicate ((writeChunked ctrl s).length - 1) 1 ++ [0] := by
  induction ctrl, s using writeChunked.induct with
  | case1 ctrl => exact absurd rfl h
  | case2 ctrl d ds rest ih =>
    have ih2 : (d :: ds).drop 4096 ≠ [] →
        (writeChunked [] ((d :: ds).drop 4096)).map Frame.m
          = List.replicate ((writeChunked [] ((d :: ds).drop 4096)).length - 1) 1
              ++ [0] := ih
    rw [writeChunked]
    by_cases hrest : (d :: ds).drop 4096 = []
    · rw [hrest, writeChunked_nil]
      simp
    · have hie : ((d :: ds).drop 4096).isEmpty = false := by
        cases hx : (d :: ds).drop 4096 with
        | nil => exact absurd hx hrest
        | cons a l => simp
      have hlen := one_le_length_writeChunked ([] : List (String × String))
        ((d :: ds).drop 4096) hrest
      simp only [hie, Bool.false_eq_true, if_false, List.map_cons, List.length_cons,
        Nat.add_sub_cancel]
      rw [ih2 hrest]
      conv_rhs =>
        rw [show (writeChunked [] ((d :: ds).drop 4096)).length
              = (writeChunked [] ((d :: ds).drop 4096)).length - 1 + 1 from by omega]
      rw [List.replicate_succ, List.cons_append]

theorem map_ctrl_writeChunked (ctrl : List (String × String)) (s : List Nat)
    (h : s ≠ []) :
    (writeChunked ctrl s).map Frame.ctrl
      = ctrl :: List.replicate ((writeChunked ctrl s).length - 1)
          ([] : List (String × String)) := by
  induction ctrl, s using writeChunked.induct with
  | case1 ctrl => exact absurd rfl h
  | case2 ctrl d ds rest ih =>
    have ih2 : (d :: ds).drop 4096 ≠ [] →
        (writeChunked [] ((d :: ds).drop 4096)).map Frame.ctrl
          = [] :: List.replicate ((writeChunked [] ((d :: ds).drop 4096)).length - 1)
              ([] : List (String × String)) := ih
    rw [writeChunked]
    simp only [List.map_cons, List.length_cons, Nat.add_sub_cancel]
    by_cases hrest : (d :: ds).drop 4096 = []
    · rw [hrest, writeChunked_nil]
      simp
    · have hlen := one_le_length_writeChunked ([] : List (String × String))
        ((d :: ds).drop 4096) hrest
      rw [ih2 hrest]
      conv_rhs =>
        rw [show (writeChunked [] ((d :: ds).drop 4096)).length
              = (writeChunked [] ((d :: ds).drop 4096)).length - 1 + 1 from by omega]
      rw [List.replicate_succ]

/-! ### LoginForm.log_in

Python strings are modelled as `List Char`.  The source normalizes the
instance URL with `startswith` and then evaluates `inst.strip("/")` as a
bare expression whose result is discarded, so no separator stripping
actually happens. -/

/-- Python `str.startswith`. -/
def startswith : List Char → List Char → Bool
  | _, [] => true
  | [], _ :: _ => false
  | c :: s, p :: ps => c == p && startswith s ps

/-- The endpoint string actually passed to `Lemmy(inst)` by
`LoginForm.log_in`: a `https://` prefix is added when `inst` does not start
with `"http"`; the result of `inst.strip("/")` is discarded by the source,
so trailing slashes survive. -/
def normalizeEndpoint (inst : List Char) : List Char :=
  if startswith inst "http".toList then inst else "https://".toList ++ inst

/-- Remove trailing `/` characters. -/
def rstripSlashes (s : List Char) : List Char :=
  ((s.reverse.dropWhile fun c => c == '/')).reverse

/-- Modelled from the spec: §4.4 step 1, "Normalize `endpoint`: prefix with
a default scheme if none present, strip trailing separators."  Stated for
refinement comparison with `normalizeEndpoint`, which is what the source
actually computes. -/
def normalizeEndpointSpec (inst : List Char) : List Char :=
  rstripSlashes (normalizeEndpoint inst)

/-- Outcome of `LoginForm.log_in`: which label text is shown and, on
success, whether the session is authenticated and which endpoint it uses. -/
inductive LoginResult where
  | connectionFailed : LoginResult
  | authFailed : LoginResult
  | success (authenticated : Bool) (endpoint : List Char) : LoginResult
deriving DecidableEq

/-- Embedding of `LoginForm.log_in`.  The external collaborators are passed
as functions: `nodeinfo e` is the truthiness of `Lemmy(e).nodeinfo`
(discovery), `auth u p` the truthiness of `lemmy.log_in(u, p)`.
Authentication is attempted only when both username and password are
non-empty (`if user and passwd:`); otherwise the code falls through to the
success path with an unauthenticated session. -/
def log_in (nodeinfo : List Char → Bool) (auth : List Char → List Char → Bool)
    (inst user passwd : List Char) : LoginResult :=
  let inst2 := normalizeEndpoint inst
  if !nodeinfo inst2 then .connectionFailed
  else if !user.isEmpty && !passwd.isEmpty then
    if !auth user passwd then .authFailed
    else .success true inst2
  else .success false inst2

/-! ### LemmyView reactive session cell

`connect_lemmy_view` assigns a freshly constructed `Lemmy` object to the
reactive attribute `LemmyView.lemmy`; since each login builds a new object
the reactive cell always detects a change and invokes `watch_lemmy`. -/

/-- The pythorhead client handle: an opaque discovery payload (`nodeinfo`)
and an opaque credential handle distinguishing separately constructed
objects. -/
structure Lemmy where
  nodeinfo : Nat
  jwt : Nat
deriving DecidableEq

/-- Embedding of `LemmyView.watch_lemmy`, returning whether
`action_search` runs: the watcher returns early when the new value is
`None` or when the old value exists and has the same `nodeinfo`. -/
def watch_lemmy (old new : Option Lemmy) : Bool :=
  match new with
  | none => false
  | some l =>
    match old with
    | none => true
    | some o => if l.nodeinfo = o.nodeinfo then false else true

/-- Observable state of the `LemmyView` for the session cell: the current
session and how many times the default query has been (re-)run. -/
structure LemmyViewState where
  lemmy : Option Lemmy
  searchRuns : Nat
deriving DecidableEq

/-- Embedding of `LemmyUIApp.connect_lemmy_view` as called from a
successful `log_in`: the reactive cell stores the new session wholesale and
the watcher decides whether the default query re-runs. -/
def connect_lemmy_view (s : LemmyViewState) (new : Lemmy) : LemmyViewState :=
  { lemmy := some new
    searchRuns :=
      if watch_lemmy s.lemmy (some new) then s.searchRuns + 1 else s.searchRuns }

/-! ### LemmyView.action_search

The query widgets hold a `QuerySpec`; the pythorhead `search` call is the
external collaborator, passed in as a function of the spec and the `limit`
argument (the source always passes `limit=20`). -/

/-- pythorhead `SearchType` values. -/
inductive SearchType where
  | All | Comments | Posts | Communities | Users | Url
deriving DecidableEq

/-- pythorhead `SortType` values (the ones the UI exposes). -/
inductive SortType where
  | Active | Hot | New | Old | TopAll
deriving DecidableEq

/-- pythorhead `ListingType` values. -/
inductive ListingType where
  | All | Local | Subscribed | Community
deriving DecidableEq

/-- The search parameters read from the `Search` widget's inputs. -/
structure QuerySpec where
  text : List Char
  kind : SearchType
  sort : SortType
  listing : ListingType
deriving DecidableEq

/-- One entry of `result["posts"]`, restricted to the `post` fields the
code consumes: `name`, `body`, `thumbnail_url` (each may be missing). -/
structure PostRecord where
  name : Option (List Char)
  body : Option (List Char)
  thumbnail_url : Option (List Char)
deriving DecidableEq

/-- The mounted `Post` widget state created by `PostView.add_post`. -/
structure Post where
  title : List Char
  body : List Char
  thumbnail : Option (List Char)
deriving DecidableEq

/-- Embedding of `PostView.add_post`: missing `name`/`body` default to the
empty string (`dict.get` with default `""`), the thumbnail URL is stored as
given (default `None`). -/
def add_post (r : PostRecord) : Post :=
  { title := r.name.getD []
    body := r.body.getD []
    thumbnail := r.thumbnail_url }

/-- Observable state of the `LemmyView` for searching: the session, the
list of mounted posts, and which post (by position) holds focus. -/
structure ViewState where
  lemmy : Option Lemmy
  posts : List Post
  focused : Option Nat
deriving DecidableEq

/-- Embedding of `postview.remove_children()`. -/
def remove_children (s : ViewState) : ViewState := { s with posts := [] }

/-- One iteration of the mount loop: `postview.add_post(post)` appends a
new `Post` widget at the end of the container. -/
def mount_post (s : ViewState) (r : PostRecord) : ViewState :=
  { s with posts := s.posts ++ [add_post r] }

/-- Embedding of `LemmyView.action_search`: return unchanged when no
session is set; otherwise issue one search with `limit=20`, clear the post
container, mount the results in order, and focus the first mounted post
when the result list is non-empty. -/
def action_search (searchFn : QuerySpec → Nat → List PostRecord)
    (q : QuerySpec) (s : ViewState) : ViewState :=
  match s.lemmy with
  | none => s
  | some _ =>
    let result := searchFn q 20
    let s2 := result.foldl mount_post (remove_children s)
    if result.isEmpty then s2 else { s2 with focused := some 0 }

/-! ### PostView._move_selection (main.py prototype)

The older prototype keeps a selection index and wraps it with Python's `%`
on the number of posts; with a positive modulus Python's `%` agrees with
`Int.emod`.  The `if not posts: return` guard makes the empty case a
no-op. -/

/-- Embedding of `PostView._move_selection`: `count` is `len(posts)`. -/
def _move_selection (count : Nat) (idx direction : Int) : Int :=
  if count = 0 then idx else (idx + direction) % (count : Int)

/-! ## Further supporting lemmas -/

theorem length_b64encode (l : List Nat) :
    (b64encode l).length = (l.length + 2) / 3 * 4 := by
  induction l using b64encode.induct with
  | case1 a b c rest ih =>
    simp only [b64encode, List.length_cons]
    rw [ih]
    omega
  | case2 a b => simp [b64encode]
  | case3 a => simp [b64encode]
  | case4 => simp [b64encode]

theorem foldl_mount_post (l : List PostRecord) (s : ViewState) :
    (l.foldl mount_post s).posts = s.posts ++ l.map add_post ∧
    (l.foldl mount_post s).lemmy = s.lemmy ∧
    (l.foldl mount_post s).focused = s.focused := by
  induction l generalizing s with
  | nil => simp
  | cons r rs ih =>
    simp only [List.foldl_cons, List.map_cons]
    refine ⟨?_, ?_, ?_⟩
    · rw [(ih (mount_post s r)).1]
      simp [mount_post]
    · rw [(ih (mount_post s r)).2.1]
      rfl
    · rw [(ih (mount_post s r)).2.2]
      rfl

theorem iterate_move_selection (count : Nat) (h0 : 0 < count) (idx : Int)
    (h1 : 0 ≤ idx) (h2 : idx < (count : Int)) (k : Nat) :
    (fun i => _move_selection count i 1)^[k] idx = (idx + k) % (count : Int) := by
  induction k with
  | zero => simp [Int.emod_eq_of_lt h1 h2]
  | succ n ihn =>
    rw [Function.iterate_succ_apply', ihn]
    simp only [_move_selection, if_neg (Nat.pos_iff_ne_zero.mp h0)]
    conv_rhs => rw [show (idx + ((n + 1 : Nat) : Int)) = idx + (n : Int) + 1 from by
      push_cast; ring]
    rw [Int.add_emod (idx + (n : Int)) 1, Int.add_emod ((idx + (n : Int)) % count) 1,
      Int.emod_emod_of_dvd _ dvd_rfl]

/-! ## Claims -/

/-- C1: for every image, concatenating the payload chunks of the frames
emitted by the codec's encode in emission order and base64-decoding the
concatenation reproduces the original image bytes exactly. -/
theorem kittyEncode_roundtrip (png : List Nat) (h : ∀ x ∈ png, x < 256) :
    b64decode (((kittyEncode png).map Frame.payload).flatten) = png := by
  rw [kittyEncode, join_payload_writeChunked]
  exact b64decode_b64encode png h

theorem kittyEncode_roundtrip_witness :
    b64decode (((kittyEncode [137, 80, 78, 71]).map Frame.payload).flatten)
      = [137, 80, 78, 71] :=
  kittyEncode_roundtrip [137, 80, 78, 71] (by decide)

/-- C2 counterexample: an image byte stream of 10000 bytes is chunked only
after base64 encoding (13336 encoded bytes), so the codec emits 4 frames,
not 3. -/
theorem kittyEncode_10000_bytes_four_frames :
    (kittyEncode (List.replicate 10000 0)).length = 4 ∧
    (kittyEncode (List.replicate 10000 0)).length ≠ 3 := by
  have h4 : (kittyEncode (List.replicate 10000 0)).length = 4 := by
    rw [kittyEncode, length_writeChunked, length_b64encode, List.length_replicate]
  refine ⟨h4, ?_⟩
  rw [h4]
  decide

/-- C2 amended: every frame except the last carries `m=1` and the last
carries `m=0`; only the first frame carries the `a=T` and `f` parameters;
and an image whose base64 encoding is 10000 bytes long (7500 image bytes)
produces exactly 3 frames. -/
theorem kittyEncode_framing (png : List Nat) (h : png ≠ []) :
    (kittyEncode png).map Frame.m
      = List.replicate ((kittyEncode png).length - 1) 1 ++ [0] ∧
    (kittyEncode png).map Frame.ctrl
      = [("a", "T"), ("f", "100")]
          :: List.replicate ((kittyEncode png).length - 1)
              ([] : List (String × String)) ∧
    (png.length = 7500 → (kittyEncode png).length = 3) := by
  have hl : 0 < png.length := List.length_pos.mpr h
  have hb : b64encode png ≠ [] := by
    apply List.length_pos.mp
    rw [length_b64encode]
    omega
  refine ⟨map_m_writeChunked _ _ hb, map_ctrl_writeChunked _ _ hb, fun h75 => ?_⟩
  rw [kittyEncode, length_writeChunked, length_b64encode, h75]

theorem kittyEncode_framing_witness :
    (kittyEncode [0, 1, 2]).map Frame.m
      = List.replicate ((kittyEncode [0, 1, 2]).length - 1) 1 ++ [0] :=
  (kittyEncode_framing [0, 1, 2] (by decide)).1

/-- C3 counterexample: on an input whose image bytes cannot be decoded the
constructor does not return a zero-length stream. -/
theorem kittyInit_undecodable_not_empty_stream :
    kittyInit none ≠ Except.ok [] := by
  simp [kittyInit]

/-- C3 amended: when the image bytes cannot be decoded the constructor
propagates the decoder's exception (there is no handler around
`Image.open`), and when decoding succeeds it returns the chunked frame
stream. -/
theorem kittyInit_spec :
    kittyInit none = Except.error () ∧
    ∀ png, kittyInit (some png) = Except.ok (kittyEncode png) :=
  ⟨rfl, fun _ => rfl⟩

/-- C4: the scheme prefix is added as the claim states and the scenario
input `"example.org"` is normalized to `"https://example.org"`, but the
result of `inst.strip("/")` is discarded by the source, so a trailing `/`
survives normalization: `"example.org/"` is sent to discovery as
`"https://example.org/"`, while the spec-modelled normalization yields
`"https://example.org"`. -/
theorem normalizeEndpoint_keeps_trailing_slash :
    normalizeEndpoint "example.org".toList = "https://example.org".toList ∧
    normalizeEndpoint "example.org/".toList = "https://example.org/".toList ∧
    normalizeEndpointSpec "example.org/".toList = "https://example.org".toList := by
  decide

/-- C5: when the username or the password is empty, the login outcome does
not depend on the authenticator at all (no authentication attempt), and if
discovery succeeds the login completes with an unauthenticated session. -/
theorem log_in_anonymous (n : List Char → Bool) (a a2 : List Char → List Char → Bool)
    (inst user passwd : List Char) (h : user = [] ∨ passwd = []) :
    log_in n a inst user passwd = log_in n a2 inst user passwd ∧
    (n (normalizeEndpoint inst) = true →
      log_in n a inst user passwd
        = LoginResult.success false (normalizeEndpoint inst)) := by
  have he : (!user.isEmpty && !passwd.isEmpty) = false := by
    rcases h with h | h <;> subst h <;> simp
  constructor
  · simp [log_in, he]
  · intro hn
    simp [log_in, he, hn]

theorem log_in_anonymous_witness :
    log_in (fun _ => true) (fun _ _ => false) "example.org".toList [] "pw".toList
      = LoginResult.success false (normalizeEndpoint "example.org".toList) :=
  (log_in_anonymous (fun _ => true) (fun _ _ => false) (fun _ _ => true)
    "example.org".toList [] "pw".toList (Or.inl rfl)).2 rfl

/-- C6 counterexample: a successful re-login to a server with the same
`nodeinfo` replaces the session in the reactive cell, but the watcher skips
`action_search`, so the default query is not re-run. -/
theorem relogin_same_server_no_search :
    (connect_lemmy_view ⟨some ⟨7, 0⟩, 0⟩ ⟨7, 1⟩).lemmy = some ⟨7, 1⟩ ∧
    (connect_lemmy_view ⟨some ⟨7, 0⟩, 0⟩ ⟨7, 1⟩).searchRuns = 0 := by
  decide

/-- C6 amended: every successful login publishes the new session wholesale
through the reactive cell, and this triggers the feed pipeline's default
query exactly when no previous session with the same `nodeinfo` was
present. -/
theorem connect_lemmy_view_spec (s : LemmyViewState) (l : Lemmy) :
    (connect_lemmy_view s l).lemmy = some l ∧
    ((connect_lemmy_view s l).searchRuns = s.searchRuns + 1 ↔
      ∀ o, s.lemmy = some o → o.nodeinfo ≠ l.nodeinfo) := by
  refine ⟨rfl, ?_⟩
  have hsr : (connect_lemmy_view s l).searchRuns
      = if watch_lemmy s.lemmy (some l) then s.searchRuns + 1 else s.searchRuns := rfl
  rw [hsr]
  cases hs : s.lemmy with
  | none =>
    rw [show watch_lemmy none (some l) = true from rfl]
    simp
  | some o =>
    by_cases hn : l.nodeinfo = o.nodeinfo
    · rw [show watch_lemmy (some o) (some l) = false from by simp [watch_lemmy, hn]]
      simp only [Bool.false_eq_true, if_false]
      constructor
      · intro habs
        exact absurd habs (by omega)
      · intro hall
        exact absurd hn.symm (hall o rfl)
    · rw [show watch_lemmy (some o) (some l) = true from by simp [watch_lemmy, hn]]
      simp only [if_true]
      constructor
      · intro _ o2 ho2
        injection ho2 with ho2e
        subst ho2e
        exact fun he => hn he.symm
      · intro _
        trivial

theorem connect_lemmy_view_spec_witness :
    (connect_lemmy_view ⟨none, 0⟩ ⟨1, 2⟩).lemmy = some ⟨1, 2⟩ ∧
    (connect_lemmy_view ⟨none, 0⟩ ⟨1, 2⟩).searchRuns = 1 :=
  ⟨(connect_lemmy_view_spec ⟨none, 0⟩ ⟨1, 2⟩).1,
   (connect_lemmy_view_spec ⟨none, 0⟩ ⟨1, 2⟩).2.mpr (by simp)⟩

/-- C7: `action_search` returns without effect when the session is absent;
with a session present, the final post list is exactly the posts returned
by the one search call in order, and every intermediate state of the mount
loop (which starts from the cleared container) shows only a prefix of the
new posts, never a stale one. -/
theorem action_search_spec (f : QuerySpec → Nat → List PostRecord)
    (q : QuerySpec) (s : ViewState) :
    (s.lemmy = none → action_search f q s = s) ∧
    (s.lemmy ≠ none →
      (action_search f q s).posts = (f q 20).map add_post ∧
      ∀ n, (((f q 20).take n).foldl mount_post (remove_children s)).posts
        = ((f q 20).take n).map add_post) := by
  cases hs : s.lemmy with
  | none =>
    refine ⟨fun _ => ?_, fun hne => absurd rfl hne⟩
    simp [action_search, hs]
  | some l =>
    refine ⟨fun h0 => absurd h0 (by simp), fun _ => ⟨?_, fun n => ?_⟩⟩
    · simp only [action_search, hs]
      by_cases he : (f q 20).isEmpty <;>
        simp [he, (foldl_mount_post _ _).1, remove_children]
    · rw [(foldl_mount_post _ _).1]
      simp [remove_children]

theorem action_search_spec_witness :
    action_search (fun _ _ => [{ name := some ['t'], body := none, thumbnail_url := none }])
      ⟨[], SearchType.Posts, SortType.Active, ListingType.All⟩
      ⟨none, [], none⟩ = ⟨none, [], none⟩ :=
  (action_search_spec _ _ _).1 rfl

/-- C8: after `action_search` installs the result list, focus moves to the
first item exactly when the list is non-empty; with zero results the focus
is unchanged. -/
theorem action_search_focus (f : QuerySpec → Nat → List PostRecord)
    (q : QuerySpec) (s : ViewState) (hs : s.lemmy ≠ none) :
    (action_search f q s).focused
      = if (f q 20).isEmpty then s.focused else some 0 := by
  cases hl : s.lemmy with
  | none => exact absurd hl hs
  | some l =>
    simp only [action_search, hl]
    by_cases he : (f q 20).isEmpty <;>
      simp [he, (foldl_mount_post _ _).2.2, remove_children]

theorem action_search_focus_witness :
    (action_search (fun _ _ => [])
        ⟨[], SearchType.Posts, SortType.Active, ListingType.All⟩
        ⟨some ⟨0, 0⟩, [], some 5⟩).focused = some 5 := by
  have := action_search_focus (fun _ _ => [])
    ⟨[], SearchType.Posts, SortType.Active, ListingType.All⟩
    ⟨some ⟨0, 0⟩, [], some 5⟩ (by simp)
  simpa using this

/-- C9: on a non-empty list of `count` items with selection index in
`[0, count)`, applying the move by `+1` `count` times returns the index to
its starting value, and on an empty list the move never changes the
index. -/
theorem move_selection_closure (count : Nat) (idx : Int)
    (h0 : 0 < count) (h1 : 0 ≤ idx) (h2 : idx < (count : Int)) :
    (fun i => _move_selection count i 1)^[count] idx = idx ∧
    ∀ (i d : Int), _move_selection 0 i d = i := by
  refine ⟨?_, fun i d => rfl⟩
  rw [iterate_move_selection count h0 idx h1 h2 count]
  rw [show idx + (count : Int) = idx + (count : Int) * 1 from by ring,
    Int.add_mul_emod_self_left, Int.emod_eq_of_lt h1 h2]

theorem move_selection_closure_witness :
    (fun i => _move_selection 3 i 1)^[3] (1 : Int) = 1 :=
  (move_selection_closure 3 1 (by decide) (by decide) (by decide)).1

/-- C10: `action_search` depends on the external search only through its
behaviour at `limit = 20` (the call always carries that fixed limit), and
whenever the search honours its limit argument a single search installs at
most 20 posts. -/
theorem action_search_limit (f g : QuerySpec → Nat → List PostRecord)
    (q : QuerySpec) (s : ViewState)
    (hfg : ∀ q', f q' 20 = g q' 20)
    (hlim : ∀ q' n, (f q' n).length ≤ n) (hs : s.lemmy ≠ none) :
    action_search f q s = action_search g q s ∧
    (action_search f q s).posts.length ≤ 20 := by
  cases hl : s.lemmy with
  | none => exact absurd hl hs
  | some l =>
    constructor
    · simp only [action_search, hl, hfg q]
    · simp only [action_search, hl]
      have h20 := hlim q 20
      by_cases he : (f q 20).isEmpty <;>
        simp [he, (foldl_mount_post _ _).1, remove_children, h20]

theorem action_search_limit_witness :
    (action_search (fun _ _ => ([] : List PostRecord))
        ⟨[], SearchType.Posts, SortType.Active, ListingType.All⟩
        ⟨some ⟨0, 0⟩, [], none⟩).posts.length ≤ 20 :=
  (action_search_limit (fun _ _ => []) (fun _ _ => [])
    ⟨[], SearchType.Posts, SortType.Active, ListingType.All⟩
    ⟨some ⟨0, 0⟩, [], none⟩ (fun _ => rfl) (fun _ _ => by simp) (by simp)).2

end Lui
